import Mathlib

/-!
Shallow embedding of the scoring and document-generation core of
`app_final.py` (UCCuyo Valorador de Informes Finales).

Text is modelled as `List Char`.  Python floats are modelled as exact
rationals (`ℚ`), with Python's `round(x, 2)` modelled as round-half-to-even
at two decimal places.  Python dicts are modelled as association lists in
insertion order.  The `while` loop of `_split_long_paragraphs` is modelled
with an explicit fuel argument instantiated with the text length, which is
shown sufficient because the cursor strictly advances on every iteration.
-/

namespace Valorador

-- The Batteries rational-number operations are irreducible by default, which
-- blocks kernel evaluation of concrete instances; make them unfoldable here.
attribute [local semireducible] Rat.add Rat.mul Rat.sub Rat.inv Rat.ofScientific

/-- Line-boundary characters recognised by Python `str.splitlines` (on the
character repertoire relevant here). -/
def isLineBreak (c : Char) : Bool :=
  c = '\n' || c = '\r' || c = '\x0b' || c = '\x0c' ||
  c = '\x1c' || c = '\x1d' || c = '\x1e' || c = '\x85' || c = '\u2028' || c = '\u2029'

/-- Characters stripped by Python `str.strip()` (i.e. `str.isspace()`):
ASCII whitespace, no-break space and the line-boundary characters. -/
def pyIsSpace (c : Char) : Bool :=
  c = ' ' || c = '\t' || c = '\xa0' || isLineBreak c

/-- Python `str.lower()` restricted to the character repertoire used by the
rubric keywords and the header phrases (ASCII letters plus the accented
Spanish capitals). -/
def pyToLower (c : Char) : Char :=
  if 'A' ≤ c && c ≤ 'Z' then Char.ofNat (c.toNat + 32)
  else if c = 'Á' then 'á'
  else if c = 'É' then 'é'
  else if c = 'Í' then 'í'
  else if c = 'Ó' then 'ó'
  else if c = 'Ú' then 'ú'
  else if c = 'Ñ' then 'ñ'
  else if c = 'Ü' then 'ü'
  else c

/-- Python `text.lower()` on a character list. -/
def pyLower (l : List Char) : List Char := l.map pyToLower

/-- Python `str.strip()`: drop whitespace from both ends. -/
def pyStrip (l : List Char) : List Char :=
  ((l.dropWhile pyIsSpace).reverse.dropWhile pyIsSpace).reverse

/-- Test whether the first list is a prefix of the second (Boolean). -/
def startsWith : List Char → List Char → Bool
  | [], _ => true
  | _ :: _, [] => false
  | a :: as, b :: bs => a == b && startsWith as bs

/-- Python's substring test `needle in hay` on character lists. -/
def occursIn (needle : List Char) : List Char → Bool
  | [] => startsWith needle []
  | c :: rest => startsWith needle (c :: rest) || occursIn needle rest

/-- Python `hay.find(needle)`: index of the first occurrence, `none` when
the needle does not occur (Python returns `-1` there). -/
def pyFind (needle : List Char) : List Char → Option Nat
  | [] => if startsWith needle [] then some 0 else none
  | c :: rest =>
    if startsWith needle (c :: rest) then some 0
    else (pyFind needle rest).map (fun x => x + 1)

/-- Round-half-to-even to the nearest integer, as Python's builtin `round`
does on an exact value. -/
def pyRoundInt (q : ℚ) : ℤ :=
  if q - (⌊q⌋ : ℚ) < 1/2 then ⌊q⌋
  else if 1/2 < q - (⌊q⌋ : ℚ) then ⌊q⌋ + 1
  else if ⌊q⌋ % 2 = 0 then ⌊q⌋ else ⌊q⌋ + 1

/-- Python `round(q, 2)` on an exact rational. -/
def round2 (q : ℚ) : ℚ := (pyRoundInt (q * 100) : ℚ) / 100

/-- The `scale` block of `rubric_final.yaml`. -/
structure Scale where
  min : ℤ
  max : ℤ
deriving DecidableEq

/-- The `thresholds` block of `rubric_final.yaml`. -/
structure Thresholds where
  aprobado : ℚ
  aprobado_obs : ℚ
deriving DecidableEq

/-- The parsed rubric configuration (`RUBRIC` in `app_final.py`):
per-criterion weights, per-criterion keyword lists, scale bounds and the
two decision thresholds. -/
structure Rubric where
  weights : List (String × ℚ)
  keywords : List (String × List (List Char))
  scale : Scale
  thresholds : Thresholds
deriving DecidableEq

/-- Python `weights.get(k, 0)` on the weights dict. -/
def dictGetQ (d : List (String × ℚ)) (k : String) : ℚ :=
  match d.find? (fun kv => kv.1 == k) with
  | some kv => kv.2
  | none => 0

/-- Python `RUBRIC.get("keywords", {}).get(key, [])`. -/
def dictGetKw (d : List (String × List (List Char))) (k : String) : List (List Char) :=
  match d.find? (fun kv => kv.1 == k) with
  | some kv => kv.2
  | none => []

/-- Number of keywords whose lower-cased form occurs in the lower-cased
text: `sum(1 for w in words if w.lower() in lower)`. -/
def countHits (lower : List Char) (words : List (List Char)) : Nat :=
  (words.filter (fun w => occursIn (pyLower w) lower)).length

/-- Embeds `naive_auto_score` (src/app_final.py lines 54-70). -/
def naive_auto_score (R : Rubric) (text : List Char) (key : String) : ℤ :=
  let words := dictGetKw R.keywords key
  let lower := pyLower text
  let hits := countHits lower words
  if words.isEmpty then 0
  else
    let ratio : ℚ := (hits : ℚ) / (words.length : ℚ)
    if ratio = 0 then 0
    else if ratio < 1/4 then 1
    else if ratio < 1/2 then 2
    else if ratio < 3/4 then 3
    else 4

/-- Embeds `weighted_total` (src/app_final.py lines 72-78): fold over the
scores dict, adding `(v / scale.max) * weights.get(k, 0)`, then round to
two decimals.  Note that the source does not divide by the weight sum. -/
def weighted_total (R : Rubric) (scores : List (String × ℤ)) : ℚ :=
  round2 (scores.foldl
    (fun total kv => total + ((kv.2 : ℚ) / (R.scale.max : ℚ)) * dictGetQ R.weights kv.1) 0)

/-- Embeds `decision` (src/app_final.py lines 80-87). -/
def decision (R : Rubric) (final_pct : ℚ) : String :=
  if R.thresholds.aprobado ≤ final_pct then ("APROBADO")
  else if R.thresholds.aprobado_obs ≤ final_pct then ("APROBADO CON OBSERVACIONES")
  else ("NO APROBADO")

/-- Embeds `load_rubric` (src/app_final.py lines 15-18): the source reads
`rubric_final.yaml`, YAML-parses it and returns the parsed value without
inspecting it.  Parsing success is modelled by taking the already-parsed
`Rubric`; the function returns it unchanged — no validation of weights or
thresholds is performed. -/
def load_rubric (parsed : Rubric) : Except String Rubric := Except.ok parsed

/-- Sum of the weights looked up for the scored keys. -/
def weightSum (R : Rubric) (scores : List (String × ℤ)) : ℚ :=
  (scores.map (fun kv => dictGetQ R.weights kv.1)).sum

/-- The percentage formula as the specification words it:
`100 × Σ(score[k] × weight[k]) / (scaleMax × Σ weight[k])` rounded to two
decimals, with result `0` when the weight sum is zero.  (Spec-worded
definition, for comparison with `weighted_total`.) -/
def spec_weightedPercentage (R : Rubric) (scores : List (String × ℤ)) : ℚ :=
  if weightSum R scores = 0 then 0
  else round2 (100 * (scores.map (fun kv => (kv.2 : ℚ) * dictGetQ R.weights kv.1)).sum
    / ((R.scale.max : ℚ) * weightSum R scores))

/-- Python dict update `scores[k] = v` for a key already present, keeping
insertion order. -/
def setScore (scores : List (String × ℤ)) (k : String) (v : ℤ) : List (String × ℤ) :=
  scores.map (fun kv => if kv.1 = k then (kv.1, v) else kv)

/-- Python `text.rfind(" ", i, j)` restricted to the window `[i, j)`:
index of the last space in the window, `none` when there is no space there
(Python returns `-1`).  The auxiliary function scans the window from its
top end downwards. -/
def rfindSpaceAux (s : List Char) (i : Nat) : Nat → Option Nat
  | 0 => none
  | m + 1 => if s.getD (i + m) 'A' == ' ' then some (i + m) else rfindSpaceAux s i m

def rfindSpace (s : List Char) (i j : Nat) : Option Nat :=
  rfindSpaceAux s i (j - i)

/-- The cut position chosen by one iteration of the `while` loop of
`_split_long_paragraphs` (src/app_final.py lines 119-126): the last space
in the window `[i, min (i+max_len) n)`, unless it is missing or lies at or
before 60% of `max_len` past the cursor, in which case the window boundary
is used.  `6 * maxLen / 10` models Python's `int(max_len * 0.6)`. -/
def cutPoint (s : List Char) (maxLen i : Nat) : Nat :=
  match rfindSpace s i (min (i + maxLen) s.length) with
  | none => min (i + maxLen) s.length
  | some k => if k ≤ i + 6 * maxLen / 10 then min (i + maxLen) s.length else k

/-- The chunking loop of `_split_long_paragraphs`, with an explicit fuel
argument standing in for the Python `while i < n` loop (the cursor strictly
advances each iteration, so `s.length` fuel is enough; see the termination
theorem). -/
def splitLoopF (s : List Char) (maxLen : Nat) : Nat → Nat → List (List Char)
  | 0, _ => []
  | fuel + 1, i =>
    if i < s.length then
      pyStrip ((s.drop i).take (cutPoint s maxLen i - i))
        :: splitLoopF s maxLen fuel (cutPoint s maxLen i)
    else []

/-- Embeds `_split_long_paragraphs` (src/app_final.py lines 108-127): strip
the text, return `[]` when empty, otherwise chunk with the cut loop and
drop empty chunks. -/
def split_long_paragraphs (text : List Char) (maxLen : Nat) : List (List Char) :=
  let t := pyStrip text
  if t.isEmpty then []
  else (splitLoopF t maxLen t.length 0).filter (fun c => !c.isEmpty)

/-- Python `" ".join(blocks)`. -/
def joinWithSpace : List (List Char) → List Char
  | [] => []
  | [b] => b
  | b :: bs => b ++ ' ' :: joinWithSpace bs

/-- Python `text.split("\n")`. -/
def splitNl : List Char → List (List Char)
  | [] => [[]]
  | c :: rest =>
    if c = '\n' then [] :: splitNl rest
    else
      match splitNl rest with
      | [] => [[c]]
      | b :: bs => (c :: b) :: bs

/-- Python `block.splitlines()`, auxiliary: `acc` is the reversed current
line.  A trailing line boundary produces no trailing empty line. -/
def pySplitlinesAux : List Char → List Char → List (List Char)
  | acc, [] => [acc.reverse]
  | acc, '\r' :: '\n' :: rest =>
    acc.reverse :: (if rest.isEmpty then [] else pySplitlinesAux [] rest)
  | acc, c :: rest =>
    if isLineBreak c then acc.reverse :: (if rest.isEmpty then [] else pySplitlinesAux [] rest)
    else pySplitlinesAux (c :: acc) rest

def pySplitlines (l : List Char) : List (List Char) :=
  if l.isEmpty then [] else pySplitlinesAux [] l

/-- Python `re.split(r"\n{2,}", s)`: split on maximal runs of two or more
newlines; `acc` is the reversed current block. -/
def reSplitNl2Aux : List Char → List Char → List (List Char)
  | acc, '\n' :: '\n' :: rest =>
    acc.reverse :: reSplitNl2Aux [] (rest.dropWhile (fun c => c == '\n'))
  | acc, c :: rest => reSplitNl2Aux (c :: acc) rest
  | acc, [] => [acc.reverse]
termination_by _ s => s.length
decreasing_by
  all_goals simp
  calc (rest.dropWhile (fun c => c == '\n')).length ≤ rest.length :=
        (List.dropWhile_sublist _).length_le
    _ < rest.length + 2 := by omega

def reSplitNl2 (s : List Char) : List (List Char) := reSplitNl2Aux [] s

/-- Python `"\n\n" in text`. -/
def hasNl2 : List Char → Bool
  | '\n' :: '\n' :: _ => true
  | _ :: rest => hasNl2 rest
  | [] => false

/-- Normalisation of one block inside `_add_full_text_as_paragraphs`
(src/app_final.py line 143): strip each line, drop empty ones, join with a
single space. -/
def blockNormalize (block : List Char) : List Char :=
  joinWithSpace (((pySplitlines block).map pyStrip).filter (fun l => !l.isEmpty))

/-- The paragraph texts contributed by one block (an empty normalised block
contributes one empty paragraph, `doc.add_paragraph("")`). -/
def perBlock (maxLen : Nat) (block : List Char) : List (List Char) :=
  let b := blockNormalize block
  if b.isEmpty then [[]] else split_long_paragraphs b maxLen

/-- Embeds `_add_full_text_as_paragraphs` (src/app_final.py lines 129-149),
returning the sequence of paragraph texts handed to `doc.add_paragraph` in
order: nothing for empty input; otherwise the input is segmented into
blocks on runs of two or more newlines (falling back to single newlines
when no double newline occurs), each block is normalised and length-guard
chunked. -/
def add_full_text_as_paragraphs (text : List Char) (maxLen : Nat) : List (List Char) :=
  if text.isEmpty then []
  else
    (if hasNl2 text then reSplitNl2 (pyStrip text) else splitNl text).flatMap
      (perBlock maxLen)

/-- The configured "final report" header phrases (`inicios`,
src/app_final.py lines 159-167). -/
def inicios : List String :=
  ["INFORME FINAL",
   "INFORME FINAL DEL PROYECTO",
   "INFORME FINAL DE INVESTIGACIÓN",
   "INFORME FINAL –",
   "INFORME FINAL:",
   "INFORME DE AVANCE"]

/-- The accumulator loop of `_recortar_evidencia_final`: smallest found
position of any pattern, `none` when no pattern occurs (`start_pos == -1`
in the source). -/
def earliestPos (lower : List Char) : List (List Char) → Option Nat → Option Nat
  | [], acc => acc
  | patt :: rest, acc =>
    earliestPos lower rest
      (match pyFind patt lower, acc with
       | none, a => a
       | some pos, none => some pos
       | some pos, some sp => if pos < sp then some pos else some sp)

/-- Embeds `_recortar_evidencia_final` (src/app_final.py lines 151-176):
keep the text from the earliest case-insensitive header phrase onwards,
stripped; when no phrase occurs return the stripped text; empty input is
returned unchanged. -/
def recortar_evidencia_final (raw : List Char) : List Char :=
  if raw.isEmpty then raw
  else
    match earliestPos (pyLower raw) (inicios.map (fun w => pyLower (String.toList w))) none with
    | none => pyStrip raw
    | some p => pyStrip (raw.drop p)

/-! ### Rounding lemmas -/

theorem pyRoundInt_ge (q : ℚ) : ⌊q⌋ ≤ pyRoundInt q := by
  unfold pyRoundInt
  split_ifs <;> omega

theorem pyRoundInt_le_up (q : ℚ) : pyRoundInt q ≤ ⌊q⌋ + 1 := by
  unfold pyRoundInt
  split_ifs <;> omega

theorem pyRoundInt_mono {q q' : ℚ} (h : q ≤ q') : pyRoundInt q ≤ pyRoundInt q' := by
  have hf : ⌊q⌋ ≤ ⌊q'⌋ := Int.floor_le_floor h
  by_cases heq : ⌊q⌋ = ⌊q'⌋
  · have hr : q - (⌊q⌋ : ℚ) ≤ q' - (⌊q'⌋ : ℚ) := by
      rw [heq]
      linarith
    unfold pyRoundInt
    rw [heq]
    rw [heq] at hr
    split_ifs <;> first | omega | linarith
  · have h1 : pyRoundInt q ≤ ⌊q⌋ + 1 := pyRoundInt_le_up q
    have h2 : ⌊q'⌋ ≤ pyRoundInt q' := pyRoundInt_ge q'
    omega

theorem round2_mono {q q' : ℚ} (h : q ≤ q') : round2 q ≤ round2 q' := by
  unfold round2
  have h1 : pyRoundInt (q * 100) ≤ pyRoundInt (q' * 100) :=
    pyRoundInt_mono (by linarith)
  have h2 : ((pyRoundInt (q * 100) : ℚ)) ≤ ((pyRoundInt (q' * 100) : ℚ)) := by
    exact_mod_cast h1
  exact div_le_div_of_nonneg_right h2 (by norm_num)

theorem round2_zero : round2 0 = 0 := by decide

theorem round2_hundred : round2 100 = 100 := by decide

/-! ### Sum helpers -/

theorem foldl_add_eq_sum {α : Type} (g : α → ℚ) :
    ∀ (l : List α) (c : ℚ), l.foldl (fun t a => t + g a) c = c + (l.map g).sum
  | [], c => by simp
  | a :: l, c => by
    simp only [List.foldl_cons, List.map_cons, List.sum_cons, foldl_add_eq_sum g l]
    ring

theorem sum_map_div {α : Type} (g : α → ℚ) (d : ℚ) :
    ∀ l : List α, (l.map (fun a => g a / d)).sum = (l.map g).sum / d
  | [] => by simp
  | a :: l => by
    simp only [List.map_cons, List.sum_cons, sum_map_div g d l]
    ring

/-- Closed form of `weighted_total` as a rounded list sum. -/
theorem weighted_total_eq (R : Rubric) (scores : List (String × ℤ)) :
    weighted_total R scores =
      round2 ((scores.map
        (fun kv => ((kv.2 : ℚ) / (R.scale.max : ℚ)) * dictGetQ R.weights kv.1)).sum) := by
  unfold weighted_total
  rw [foldl_add_eq_sum, zero_add]

/-! ### Concrete rubrics used in witnesses and counterexamples -/

def R0 : Rubric := ⟨[("a", 50)], [], ⟨0, 4⟩, ⟨80, 60⟩⟩

def S0 : List (String × ℤ) := [(("a" : String), (4 : ℤ))]

def R1 : Rubric := ⟨[("a", 100)], [], ⟨0, 4⟩, ⟨80, 60⟩⟩

def S1 : List (String × ℤ) := [(("a" : String), (2 : ℤ))]

def R2 : Rubric := ⟨[("a", 200)], [], ⟨0, 4⟩, ⟨80, 60⟩⟩

def Rneg : Rubric := ⟨[("a", 50)], [], ⟨0, -4⟩, ⟨80, 60⟩⟩

def Sz : List (String × ℤ) := [(("a" : String), (0 : ℤ))]

def Rbad : Rubric := ⟨[("a", 0)], [], ⟨0, 4⟩, ⟨60, 80⟩⟩

def R6 : Rubric := ⟨[], [(("x" : String), [("alpha").toList, ("beta").toList])], ⟨0, 4⟩, ⟨80, 60⟩⟩

/-! ### C1 -/

/-- C1, counterexample: with weights summing to 50 (not 100) the code's
output differs from the specification's normalised formula; the code
returns 50 where the formula gives 100. -/
theorem weighted_total_ne_spec_formula :
    weighted_total R0 S0 = 50 ∧ spec_weightedPercentage R0 S0 = 100 ∧
      weighted_total R0 S0 ≠ spec_weightedPercentage R0 S0 :=
  ⟨by decide, by decide, by decide⟩

/-- C1 (amended): for a positive scale maximum (the region where the
division in the source is defined), `weighted_total` returns
`round2 (Σ (score[k] / scaleMax) × weight[k])` with no normalisation by the
weight sum; whenever the scored keys' weights sum to 100 this agrees with
the spec formula, and when every scored key's weight is zero the result is
0 (never raising). -/
theorem weighted_total_unnormalized (R : Rubric) (scores : List (String × ℤ))
    (hmax : 0 < R.scale.max) :
    (weightSum R scores = 100 →
        weighted_total R scores = spec_weightedPercentage R scores) ∧
    ((∀ kv ∈ scores, dictGetQ R.weights kv.1 = 0) → weighted_total R scores = 0) := by
  have hmaxQ : (R.scale.max : ℚ) ≠ 0 := by
    have : (0 : ℚ) < (R.scale.max : ℚ) := by exact_mod_cast hmax
    exact this.ne'
  constructor
  · intro hw
    rw [weighted_total_eq]
    unfold spec_weightedPercentage
    rw [if_neg (by rw [hw]; norm_num), hw]
    congr 1
    have hterm :
        (fun kv : String × ℤ => ((kv.2 : ℚ) / (R.scale.max : ℚ)) * dictGetQ R.weights kv.1)
          = fun kv : String × ℤ =>
              ((kv.2 : ℚ) * dictGetQ R.weights kv.1) / (R.scale.max : ℚ) := by
      funext kv
      ring
    rw [hterm, sum_map_div]
    field_simp
    ring
  · intro h0
    rw [weighted_total_eq]
    rw [List.sum_eq_zero, round2_zero]
    intro x hx
    obtain ⟨kv, hkv, rfl⟩ := List.mem_map.1 hx
    rw [h0 kv hkv, mul_zero]

/-- C1, witness for the amended theorem. -/
theorem weighted_total_unnormalized_witness :
    0 < R1.scale.max ∧ weightSum R1 S1 = 100 ∧
      weighted_total R1 S1 = spec_weightedPercentage R1 S1 :=
  ⟨by decide, by decide, (weighted_total_unnormalized R1 S1 (by decide)).1 (by decide)⟩

/-! ### C2 -/

/-- C2, counterexample: a valid score set (score 4 on scale 0..4) with a
nonzero weight sum (200) yields weighted percentage 200, outside [0, 100]. -/
theorem weighted_total_exceeds_100 :
    weightSum R2 S0 ≠ 0 ∧ weighted_total R2 S0 = 200 ∧ 100 < weighted_total R2 S0 :=
  ⟨by decide, by decide, by decide⟩

/-- C2 (amended): for a positive scale maximum, scores within
`[0, scale.max]`, non-negative scored weights, and scored weight sum at
most 100 (the code does not normalise by the weight sum), the weighted
percentage lies in `[0, 100]`. -/
theorem weighted_total_bounded (R : Rubric) (scores : List (String × ℤ))
    (hmax : 0 < R.scale.max)
    (hs : ∀ kv ∈ scores, 0 ≤ kv.2 ∧ kv.2 ≤ R.scale.max)
    (hw : ∀ kv ∈ scores, 0 ≤ dictGetQ R.weights kv.1)
    (hsum : weightSum R scores ≤ 100) :
    0 ≤ weighted_total R scores ∧ weighted_total R scores ≤ 100 := by
  have hmaxQ : (0 : ℚ) < (R.scale.max : ℚ) := by exact_mod_cast hmax
  have h1 : 0 ≤ (scores.map
      (fun kv => ((kv.2 : ℚ) / (R.scale.max : ℚ)) * dictGetQ R.weights kv.1)).sum := by
    apply List.sum_nonneg
    intro x hx
    obtain ⟨kv, hkv, rfl⟩ := List.mem_map.1 hx
    have hv : (0 : ℚ) ≤ (kv.2 : ℚ) := by exact_mod_cast (hs kv hkv).1
    exact mul_nonneg (div_nonneg hv hmaxQ.le) (hw kv hkv)
  have h2 : (scores.map
      (fun kv => ((kv.2 : ℚ) / (R.scale.max : ℚ)) * dictGetQ R.weights kv.1)).sum
      ≤ weightSum R scores := by
    apply List.sum_le_sum
    intro kv hkv
    have hv : (kv.2 : ℚ) ≤ (R.scale.max : ℚ) := by exact_mod_cast (hs kv hkv).2
    calc ((kv.2 : ℚ) / (R.scale.max : ℚ)) * dictGetQ R.weights kv.1
        ≤ 1 * dictGetQ R.weights kv.1 :=
          mul_le_mul_of_nonneg_right ((div_le_one hmaxQ).2 hv) (hw kv hkv)
      _ = dictGetQ R.weights kv.1 := one_mul _
  rw [weighted_total_eq]
  constructor
  · calc (0 : ℚ) = round2 0 := round2_zero.symm
      _ ≤ _ := round2_mono h1
  · calc round2 _ ≤ round2 100 := round2_mono (le_trans h2 hsum)
      _ = 100 := round2_hundred

/-- C2, witness for the amended theorem. -/
theorem weighted_total_bounded_witness :
    0 ≤ weighted_total R1 S1 ∧ weighted_total R1 S1 ≤ 100 :=
  weighted_total_bounded R1 S1 (by decide) (by decide) (by decide) (by decide)

/-! ### C9 -/

/-- C9, counterexample: with a non-negative weight (50) but a negative
scale maximum, raising the score of key `a` from 0 to 4 lowers the
weighted percentage from 0 to -50. -/
theorem weighted_total_not_monotone :
    weighted_total Rneg (setScore Sz ("a") 4) < weighted_total Rneg (setScore Sz ("a") 0) := by
  decide

/-- C9 (amended): with a positive scale maximum and non-negative scored
weights, raising one criterion's score while holding the others fixed never
lowers the weighted percentage. -/
theorem weighted_total_score_mono (R : Rubric) (scores : List (String × ℤ))
    (k : String) (v v' : ℤ)
    (hmax : 0 < R.scale.max)
    (hw : ∀ kv ∈ scores, 0 ≤ dictGetQ R.weights kv.1)
    (hv : v ≤ v') :
    weighted_total R (setScore scores k v) ≤ weighted_total R (setScore scores k v') := by
  have hmaxQ : (0 : ℚ) < (R.scale.max : ℚ) := by exact_mod_cast hmax
  rw [weighted_total_eq, weighted_total_eq]
  apply round2_mono
  unfold setScore
  rw [List.map_map, List.map_map]
  apply List.sum_le_sum
  intro kv hkv
  by_cases hkk : kv.1 = k
  · simp only [Function.comp_apply, if_pos hkk]
    have hvc : (v : ℚ) ≤ (v' : ℚ) := by exact_mod_cast hv
    exact mul_le_mul_of_nonneg_right
      (div_le_div_of_nonneg_right hvc hmaxQ.le) (hw kv hkv)
  · simp only [Function.comp_apply, if_neg hkk]
    exact le_refl _

/-- C9, witness for the amended theorem. -/
theorem weighted_total_score_mono_witness :
    (1 : ℤ) ≤ 3 ∧
      weighted_total R1 (setScore S1 ("a") 1) ≤ weighted_total R1 (setScore S1 ("a") 3) :=
  ⟨by decide, weighted_total_score_mono R1 S1 ("a") 1 3 (by decide) (by decide) (by decide)⟩

/-! ### C5 -/

/-- C5: with thresholds ordered `aprobado_obs ≤ aprobado`, `decision`
returns `"APROBADO"` exactly when `aprobado ≤ p`, `"APROBADO CON
OBSERVACIONES"` exactly when `aprobado_obs ≤ p < aprobado`, and
`"NO APROBADO"` exactly when `p < aprobado_obs`: the three cases cover
every percentage exactly once, with the boundary `p = aprobado` classified
as `"APROBADO"`. -/
theorem decision_threshold_partition (R : Rubric) (p : ℚ)
    (h : R.thresholds.aprobado_obs ≤ R.thresholds.aprobado) :
    (decision R p = "APROBADO" ↔ R.thresholds.aprobado ≤ p) ∧
    (decision R p = "APROBADO CON OBSERVACIONES" ↔
      R.thresholds.aprobado_obs ≤ p ∧ p < R.thresholds.aprobado) ∧
    (decision R p = "NO APROBADO" ↔ p < R.thresholds.aprobado_obs) := by
  unfold decision
  split_ifs with h1 h2
  · exact ⟨⟨fun _ => h1, fun _ => rfl⟩,
      ⟨fun hx => absurd hx (by decide), fun hx => absurd hx.2 (not_lt.2 h1)⟩,
      ⟨fun hx => absurd hx (by decide), fun hx => absurd hx (not_lt.2 (le_trans h h1))⟩⟩
  · exact ⟨⟨fun hx => absurd hx (by decide), fun hx => absurd hx h1⟩,
      ⟨fun _ => ⟨h2, not_le.1 h1⟩, fun _ => rfl⟩,
      ⟨fun hx => absurd hx (by decide), fun hx => absurd h2 (not_le.2 hx)⟩⟩
  · exact ⟨⟨fun hx => absurd hx (by decide), fun hx => absurd hx h1⟩,
      ⟨fun hx => absurd hx (by decide), fun hx => absurd hx.1 h2⟩,
      ⟨fun _ => not_le.1 h2, fun _ => rfl⟩⟩

/-- C5, witness. -/
theorem decision_threshold_partition_witness :
    R0.thresholds.aprobado_obs ≤ R0.thresholds.aprobado ∧
      (decision R0 85 = "APROBADO" ↔ R0.thresholds.aprobado ≤ 85) :=
  ⟨by decide, (decision_threshold_partition R0 85 (by decide)).1⟩

/-! ### C8 -/

/-- C8, counterexample: a configuration whose weights sum to zero and whose
thresholds are inverted is accepted unchanged by `load_rubric` — no
configuration validation exists anywhere in the code. -/
theorem load_rubric_accepts_bad_config :
    (Rbad.weights.map Prod.snd).sum = 0 ∧
      Rbad.thresholds.aprobado < Rbad.thresholds.aprobado_obs ∧
      load_rubric Rbad = Except.ok Rbad :=
  ⟨by decide, by decide, rfl⟩

/-- C8 (amended): `load_rubric` performs no validation at all — even a
configuration with zero weight sum or inverted thresholds is returned as
parsed, and evaluation proceeds with it. -/
theorem load_rubric_rejects_nothing (R : Rubric)
    (_hbad : (R.weights.map Prod.snd).sum = 0 ∨
      R.thresholds.aprobado < R.thresholds.aprobado_obs) :
    load_rubric R = Except.ok R := rfl

/-! ### C6 -/

/-- In a ratio `hits / total`, being below `a / b` is the integer condition
`b * hits < a * total`. -/
theorem ratio_band {h L a b : ℕ} (hL : 0 < L) (hb : 0 < b) :
    ((h : ℚ) / (L : ℚ) < (a : ℚ) / (b : ℚ)) ↔ h * b < a * L := by
  rw [div_lt_div_iff₀ (by exact_mod_cast hL) (by exact_mod_cast hb)]
  exact_mod_cast Iff.rfl

theorem quarter_band {h L : ℕ} (hL : 0 < L) :
    ((h : ℚ) / (L : ℚ) < 1 / 4) ↔ 4 * h < L := by
  have := ratio_band (h := h) (L := L) (a := 1) (b := 4) hL (by norm_num)
  rw [show ((1 : ℕ) : ℚ) = 1 by norm_num, show ((4 : ℕ) : ℚ) = 4 by norm_num] at this
  rw [this]
  omega

theorem half_band {h L : ℕ} (hL : 0 < L) :
    ((h : ℚ) / (L : ℚ) < 1 / 2) ↔ 2 * h < L := by
  have := ratio_band (h := h) (L := L) (a := 1) (b := 2) hL (by norm_num)
  rw [show ((1 : ℕ) : ℚ) = 1 by norm_num, show ((2 : ℕ) : ℚ) = 2 by norm_num] at this
  rw [this]
  omega

theorem threequarter_band {h L : ℕ} (hL : 0 < L) :
    ((h : ℚ) / (L : ℚ) < 3 / 4) ↔ 4 * h < 3 * L := by
  have := ratio_band (h := h) (L := L) (a := 3) (b := 4) hL (by norm_num)
  rw [show ((3 : ℕ) : ℚ) = 3 by norm_num, show ((4 : ℕ) : ℚ) = 4 by norm_num] at this
  rw [this]
  omega

/-- C6: the automatic scorer counts case-insensitive keyword substring
hits; it returns 0 for an empty keyword list or zero hits and otherwise
maps the hit ratio to the band 1 (ratio < 1/4), 2 (ratio < 1/2),
3 (ratio < 3/4) or 4 (otherwise); it is a total function (never raises). -/
theorem naive_auto_score_bands (R : Rubric) (text : List Char) (key : String) :
    (dictGetKw R.keywords key = [] → naive_auto_score R text key = 0) ∧
    (countHits (pyLower text) (dictGetKw R.keywords key) = 0 →
      naive_auto_score R text key = 0) ∧
    (0 < countHits (pyLower text) (dictGetKw R.keywords key) →
      naive_auto_score R text key =
        if 4 * countHits (pyLower text) (dictGetKw R.keywords key)
            < (dictGetKw R.keywords key).length then 1
        else if 2 * countHits (pyLower text) (dictGetKw R.keywords key)
            < (dictGetKw R.keywords key).length then 2
        else if 4 * countHits (pyLower text) (dictGetKw R.keywords key)
            < 3 * (dictGetKw R.keywords key).length then 3
        else 4) := by
  refine ⟨?_, ?_, ?_⟩
  · intro h0
    simp [naive_auto_score, h0]
  · intro h0
    simp only [naive_auto_score, h0]
    split_ifs <;> simp_all
  · intro hpos
    have hne : dictGetKw R.keywords key ≠ [] := by
      intro h0
      rw [h0] at hpos
      simp [countHits] at hpos
    have hlen : 0 < (dictGetKw R.keywords key).length := List.length_pos.2 hne
    have hposQ : (0 : ℚ) < (countHits (pyLower text) (dictGetKw R.keywords key) : ℚ) := by
      exact_mod_cast hpos
    have hlenQ : (0 : ℚ) < ((dictGetKw R.keywords key).length : ℚ) := by
      exact_mod_cast hlen
    have hrne : ((countHits (pyLower text) (dictGetKw R.keywords key) : ℚ)
        / ((dictGetKw R.keywords key).length : ℚ)) ≠ 0 :=
      div_ne_zero hposQ.ne' hlenQ.ne'
    simp only [naive_auto_score]
    rw [if_neg (by simp [List.isEmpty_iff, hne])]
    rw [if_neg hrne]
    simp only [quarter_band hlen, half_band hlen, threequarter_band hlen]

/-- C6, witness: two keywords, one hit — ratio 1/2 falls in the third band
and scores 3. -/
theorem naive_auto_score_bands_witness :
    0 < countHits (pyLower (("hay alpha aqui").toList)) (dictGetKw R6.keywords ("x")) ∧
      naive_auto_score R6 (("hay alpha aqui").toList) ("x") =
        if 4 * countHits (pyLower (("hay alpha aqui").toList)) (dictGetKw R6.keywords ("x"))
            < (dictGetKw R6.keywords ("x")).length then 1
        else if 2 * countHits (pyLower (("hay alpha aqui").toList)) (dictGetKw R6.keywords ("x"))
            < (dictGetKw R6.keywords ("x")).length then 2
        else if 4 * countHits (pyLower (("hay alpha aqui").toList)) (dictGetKw R6.keywords ("x"))
            < 3 * (dictGetKw R6.keywords ("x")).length then 3
        else 4 :=
  ⟨by decide, (naive_auto_score_bands R6 (("hay alpha aqui").toList) ("x")).2.2 (by decide)⟩

/-- C8, witness for the amended theorem. -/
theorem load_rubric_rejects_nothing_witness :
    ((Rbad.weights.map Prod.snd).sum = 0 ∨
        Rbad.thresholds.aprobado < Rbad.thresholds.aprobado_obs) ∧
      load_rubric Rbad = Except.ok Rbad :=
  ⟨Or.inl (by decide), load_rubric_rejects_nothing Rbad (Or.inl (by decide))⟩

/-! ### Evidence-formatter lemmas -/

theorem rfindSpaceAux_lt (s : List Char) (i : Nat) :
    ∀ m k, rfindSpaceAux s i m = some k → i ≤ k ∧ k < i + m
  | 0, k => by simp [rfindSpaceAux]
  | m + 1, k => by
    simp only [rfindSpaceAux]
    split_ifs with h
    · intro hk
      injection hk with hk
      omega
    · intro hk
      have := rfindSpaceAux_lt s i m k hk
      omega

theorem rfindSpace_bounds {s : List Char} {i j k : Nat}
    (h : rfindSpace s i j = some k) : i ≤ k ∧ k < j := by
  unfold rfindSpace at h
  have := rfindSpaceAux_lt s i (j - i) k h
  omega

theorem cutPoint_le_window (s : List Char) (maxLen i : Nat) :
    cutPoint s maxLen i ≤ i + maxLen := by
  unfold cutPoint
  have hmin : min (i + maxLen) s.length ≤ i + maxLen := min_le_left _ _
  cases hr : rfindSpace s i (min (i + maxLen) s.length) with
  | none => exact hmin
  | some k =>
    have := rfindSpace_bounds hr
    dsimp only
    split_ifs <;> omega

theorem lt_cutPoint (s : List Char) (maxLen i : Nat) (hm : 1 ≤ maxLen)
    (hi : i < s.length) : i < cutPoint s maxLen i := by
  unfold cutPoint
  have hmin : i < min (i + maxLen) s.length := by
    rcases Nat.min_eq_left (le_refl (i + maxLen)) with _
    have h1 : i < i + maxLen := by omega
    exact lt_min h1 hi
  cases hr : rfindSpace s i (min (i + maxLen) s.length) with
  | none => exact hmin
  | some k =>
    dsimp only
    split_ifs with h
    · exact hmin
    · omega

theorem pyStrip_length_le (l : List Char) : (pyStrip l).length ≤ l.length := by
  unfold pyStrip
  rw [List.length_reverse]
  calc ((l.dropWhile pyIsSpace).reverse.dropWhile pyIsSpace).length
      ≤ (l.dropWhile pyIsSpace).reverse.length := (List.dropWhile_sublist _).length_le
    _ = (l.dropWhile pyIsSpace).length := List.length_reverse _
    _ ≤ l.length := (List.dropWhile_sublist _).length_le

theorem splitLoopF_chunk_le (s : List Char) (maxLen : Nat) :
    ∀ fuel i c, c ∈ splitLoopF s maxLen fuel i → c.length ≤ maxLen
  | 0, i, c => by simp [splitLoopF]
  | fuel + 1, i, c => by
    simp only [splitLoopF]
    split_ifs with h
    · intro hc
      rcases List.mem_cons.1 hc with hc | hc
      · subst hc
        calc (pyStrip ((s.drop i).take (cutPoint s maxLen i - i))).length
            ≤ ((s.drop i).take (cutPoint s maxLen i - i)).length := pyStrip_length_le _
          _ ≤ cutPoint s maxLen i - i := by
              rw [List.length_take]
              omega
          _ ≤ maxLen := by
              have := cutPoint_le_window s maxLen i
              omega
      · exact splitLoopF_chunk_le s maxLen fuel _ c hc
    · simp

theorem splitLoopF_eq_nil_of_le (s : List Char) (maxLen : Nat) :
    ∀ fuel i, s.length ≤ i → splitLoopF s maxLen fuel i = []
  | 0, i, _ => rfl
  | fuel + 1, i, h => by simp [splitLoopF, Nat.not_lt.2 h]

theorem splitLoopF_fuel_stable (s : List Char) (maxLen : Nat) (hm : 1 ≤ maxLen) :
    ∀ fuel fuel' i, s.length - i ≤ fuel → s.length - i ≤ fuel' →
      splitLoopF s maxLen fuel i = splitLoopF s maxLen fuel' i := by
  intro fuel
  induction fuel with
  | zero =>
    intro fuel' i h1 h2
    rw [splitLoopF_eq_nil_of_le s maxLen 0 i (by omega),
      splitLoopF_eq_nil_of_le s maxLen fuel' i (by omega)]
  | succ fuel ih =>
    intro fuel' i h1 h2
    by_cases h : i < s.length
    · cases fuel' with
      | zero => omega
      | succ fuel' =>
        simp only [splitLoopF, if_pos h]
        have hadv := lt_cutPoint s maxLen i hm h
        rw [ih fuel' (cutPoint s maxLen i) (by omega) (by omega)]
    · rw [splitLoopF_eq_nil_of_le s maxLen _ i (by omega),
        splitLoopF_eq_nil_of_le s maxLen fuel' i (by omega)]

/-! ### C10 -/

/-- C10: when the cursor is inside the text and the length bound is at
least 1, the chosen cut position is strictly past the cursor (so the loop
terminates); when the last space of the window lies at or before 60% of
`max_len` past the cursor, the cut falls back to the window boundary; and
any fuel at least the remaining length computes the same chunk list, i.e.
the loop completes within `s.length - i` iterations. -/
theorem splitLoop_cursor_advances (s : List Char) (maxLen i : Nat)
    (hm : 1 ≤ maxLen) (hi : i < s.length) :
    i < cutPoint s maxLen i ∧
    (∀ k, rfindSpace s i (min (i + maxLen) s.length) = some k →
      k ≤ i + 6 * maxLen / 10 → cutPoint s maxLen i = min (i + maxLen) s.length) ∧
    (∀ fuel, s.length - i ≤ fuel →
      splitLoopF s maxLen fuel i = splitLoopF s maxLen (s.length - i) i) := by
  refine ⟨lt_cutPoint s maxLen i hm hi, ?_, ?_⟩
  · intro k hk hkle
    unfold cutPoint
    rw [hk]
    simp [hkle]
  · intro fuel hfuel
    exact splitLoopF_fuel_stable s maxLen hm fuel (s.length - i) i hfuel (le_refl _)

/-- C10, witness. -/
theorem splitLoop_cursor_advances_witness :
    (1 ≤ 2 ∧ 0 < (("ab c").toList).length) ∧ 0 < cutPoint (("ab c").toList) 2 0 :=
  ⟨⟨by decide, by decide⟩,
    (splitLoop_cursor_advances (("ab c").toList) 2 0 (by decide) (by decide)).1⟩

/-! ### C3 -/

/-- C3: every paragraph produced by the evidence formatter (block
segmentation, line-join normalisation, then length-guard chunking) has at
most `maxLen` characters. -/
theorem perBlock_chunk_le (maxLen : Nat) (p block : List Char)
    (hpb : p ∈ perBlock maxLen block) : p.length ≤ maxLen := by
  simp only [perBlock] at hpb
  split_ifs at hpb with hbe
  · rw [List.mem_singleton] at hpb
    subst hpb
    simp
  · simp only [split_long_paragraphs] at hpb
    split_ifs at hpb with ht
    · simp at hpb
    · exact splitLoopF_chunk_le _ _ _ _ p (List.mem_of_mem_filter hpb)

theorem add_full_text_paragraphs_le (text : List Char) (maxLen : Nat)
    (_hm : 1 ≤ maxLen) :
    ∀ p ∈ add_full_text_as_paragraphs text maxLen, p.length ≤ maxLen := by
  intro p hp
  unfold add_full_text_as_paragraphs at hp
  split_ifs at hp with h h2
  · simp at hp
  · obtain ⟨block, _, hpb⟩ := List.mem_flatMap.1 hp
    exact perBlock_chunk_le maxLen p block hpb
  · obtain ⟨block, _, hpb⟩ := List.mem_flatMap.1 hp
    exact perBlock_chunk_le maxLen p block hpb

/-- C3, witness. -/
theorem add_full_text_paragraphs_le_witness :
    1 ≤ 2 ∧ (("ab").toList).length ≤ 2 :=
  ⟨by decide,
    add_full_text_paragraphs_le (("ab c").toList) 2 (by decide) (("ab").toList) (by decide)⟩

/-! ### Whitespace-preservation lemmas -/

@[simp] theorem pyIsSpace_newline : pyIsSpace '\n' = true := by decide

@[simp] theorem pyIsSpace_carriage : pyIsSpace '\r' = true := by decide

@[simp] theorem pyIsSpace_blank : pyIsSpace ' ' = true := by decide

theorem pyIsSpace_of_isLineBreak {c : Char} (h : isLineBreak c = true) :
    pyIsSpace c = true := by
  simp [pyIsSpace, h]

theorem pyIsSpace_of_beq_nl : ∀ c : Char, (c == '\n') = true → pyIsSpace c = true := by
  intro c h
  have hc : c = '\n' := by simpa using h
  rw [hc]
  exact pyIsSpace_newline

theorem filter_dropWhile_eq (p : Char → Bool)
    (hp : ∀ c, p c = true → pyIsSpace c = true) :
    ∀ l : List Char,
      (l.dropWhile p).filter (fun c => !pyIsSpace c) = l.filter (fun c => !pyIsSpace c)
  | [] => rfl
  | c :: l => by
    by_cases hc : p c
    · rw [List.dropWhile_cons_of_pos hc, filter_dropWhile_eq p hp l, List.filter_cons]
      simp [hp c hc]
    · rw [List.dropWhile_cons_of_neg hc]

theorem filter_pyStrip (l : List Char) :
    (pyStrip l).filter (fun c => !pyIsSpace c) = l.filter (fun c => !pyIsSpace c) := by
  unfold pyStrip
  rw [List.filter_reverse, filter_dropWhile_eq pyIsSpace (fun c h => h),
    List.filter_reverse, List.reverse_reverse, filter_dropWhile_eq pyIsSpace (fun c h => h)]

theorem splitNl_ne_nil : ∀ l : List Char, splitNl l ≠ []
  | [] => by simp [splitNl]
  | c :: l => by
    simp only [splitNl]
    split_ifs
    · simp
    · cases h : splitNl l <;> simp

theorem filter_flatten_splitNl :
    ∀ l : List Char,
      ((splitNl l).flatten).filter (fun c => !pyIsSpace c) = l.filter (fun c => !pyIsSpace c)
  | [] => rfl
  | c :: l => by
    simp only [splitNl]
    split_ifs with hc
    · subst hc
      simp only [List.flatten_cons, List.nil_append]
      rw [filter_flatten_splitNl l, List.filter_cons]
      simp
    · cases hs : splitNl l with
      | nil => exact absurd hs (splitNl_ne_nil l)
      | cons b bs =>
        have ih := filter_flatten_splitNl l
        rw [hs, List.flatten_cons] at ih
        simp only [List.flatten_cons, List.cons_append, List.filter_cons]
        rw [ih]

set_option maxHeartbeats 1000000 in
theorem filter_flatten_pySplitlinesAux (acc s : List Char) :
    ((pySplitlinesAux acc s).flatten).filter (fun c => !pyIsSpace c)
      = (acc.reverse ++ s).filter (fun c => !pyIsSpace c) := by
  induction acc, s using pySplitlinesAux.induct with
  | case1 acc => simp [pySplitlinesAux]
  | case2 acc rest ih =>
    rw [pySplitlinesAux.eq_2]
    by_cases hre : rest.isEmpty
    · rw [if_pos hre, List.isEmpty_iff.1 hre]
      simp [List.filter_append, List.filter_cons]
    · rw [if_neg hre]
      simp only [List.flatten_cons, List.filter_append]
      simp only [List.reverse_nil, List.nil_append] at ih
      rw [ih]
      simp [List.filter_append, List.filter_cons]
  | case3 acc c rest hno hbr ih =>
    rw [pySplitlinesAux.eq_3 _ _ _ hno, if_pos hbr]
    have hsp : pyIsSpace c = true := pyIsSpace_of_isLineBreak hbr
    by_cases hre : rest.isEmpty
    · rw [if_pos hre, List.isEmpty_iff.1 hre]
      simp [List.filter_append, List.filter_cons, hsp]
    · rw [if_neg hre]
      simp only [List.flatten_cons, List.filter_append]
      simp only [List.reverse_nil, List.nil_append] at ih
      rw [ih]
      simp [List.filter_append, List.filter_cons, hsp]
  | case4 acc c rest hno hbr ih =>
    rw [pySplitlinesAux.eq_3 _ _ _ hno, if_neg hbr, ih, List.reverse_cons,
      List.append_assoc, List.singleton_append]

theorem filter_flatten_pySplitlines (l : List Char) :
    ((pySplitlines l).flatten).filter (fun c => !pyIsSpace c)
      = l.filter (fun c => !pyIsSpace c) := by
  unfold pySplitlines
  split_ifs with h
  · rw [List.isEmpty_iff.1 h]
    rfl
  · simpa using filter_flatten_pySplitlinesAux [] l

theorem filter_flatten_reSplitNl2Aux (acc s : List Char) :
    ((reSplitNl2Aux acc s).flatten).filter (fun c => !pyIsSpace c)
      = (acc.reverse ++ s).filter (fun c => !pyIsSpace c) := by
  induction acc, s using reSplitNl2Aux.induct with
  | case1 acc rest ih =>
    rw [reSplitNl2Aux.eq_1]
    simp only [List.flatten_cons, List.filter_append]
    simp only [List.reverse_nil, List.nil_append] at ih
    rw [ih, filter_dropWhile_eq (fun x => x == '\n') pyIsSpace_of_beq_nl rest]
    simp [List.filter_append, List.filter_cons]
  | case2 acc c rest hno ih =>
    rw [reSplitNl2Aux.eq_2 _ _ _ hno, ih, List.reverse_cons,
      List.append_assoc, List.singleton_append]
  | case3 acc => simp [reSplitNl2Aux]

theorem filter_joinWithSpace (L : List (List Char)) :
    (joinWithSpace L).filter (fun c => !pyIsSpace c)
      = (L.flatten).filter (fun c => !pyIsSpace c) := by
  induction L using joinWithSpace.induct with
  | case1 => rfl
  | case2 b => simp [joinWithSpace]
  | case3 b bs hne ih =>
    rw [joinWithSpace.eq_3 _ _ hne]
    simp only [List.flatten_cons, List.filter_append, List.filter_cons]
    rw [ih]
    simp

theorem flatten_filter_nonempty : ∀ L : List (List Char),
    (L.filter (fun c => !c.isEmpty)).flatten = L.flatten
  | [] => rfl
  | b :: L => by
    by_cases hb : b.isEmpty = true
    · have hb' : b = [] := List.isEmpty_iff.1 hb
      subst hb'
      simp [List.filter_cons, flatten_filter_nonempty L]
    · simp [List.filter_cons, hb, flatten_filter_nonempty L]

theorem filter_flatten_map_pyStrip : ∀ L : List (List Char),
    ((L.map pyStrip).flatten).filter (fun c => !pyIsSpace c)
      = (L.flatten).filter (fun c => !pyIsSpace c)
  | [] => rfl
  | b :: L => by
    simp only [List.map_cons, List.flatten_cons, List.filter_append,
      filter_pyStrip, filter_flatten_map_pyStrip L]

theorem filter_blockNormalize (b : List Char) :
    (blockNormalize b).filter (fun c => !pyIsSpace c) = b.filter (fun c => !pyIsSpace c) := by
  unfold blockNormalize
  rw [filter_joinWithSpace, flatten_filter_nonempty, filter_flatten_map_pyStrip,
    filter_flatten_pySplitlines]

theorem splitLoopF_cover (s : List Char) (maxLen : Nat) (hm : 1 ≤ maxLen) :
    ∀ fuel i, s.length - i ≤ fuel →
      ((splitLoopF s maxLen fuel i).flatten).filter (fun c => !pyIsSpace c)
        = (s.drop i).filter (fun c => !pyIsSpace c) := by
  intro fuel
  induction fuel with
  | zero =>
    intro i h
    rw [List.drop_eq_nil_of_le (by omega)]
    rfl
  | succ fuel ih =>
    intro i h
    by_cases hi : i < s.length
    · simp only [splitLoopF, if_pos hi, List.flatten_cons, List.filter_append]
      have hadv := lt_cutPoint s maxLen i hm hi
      rw [filter_pyStrip, ih (cutPoint s maxLen i) (by omega)]
      have hdd : s.drop (cutPoint s maxLen i)
          = (s.drop i).drop (cutPoint s maxLen i - i) := by
        rw [List.drop_drop]
        congr 1
        omega
      rw [hdd, ← List.filter_append, List.take_append_drop]
    · rw [splitLoopF_eq_nil_of_le s maxLen _ _ (by omega),
        List.drop_eq_nil_of_le (by omega)]
      rfl

theorem filter_flatten_split_long (b : List Char) (maxLen : Nat) (hm : 1 ≤ maxLen) :
    ((split_long_paragraphs b maxLen).flatten).filter (fun c => !pyIsSpace c)
      = b.filter (fun c => !pyIsSpace c) := by
  simp only [split_long_paragraphs]
  split_ifs with ht
  · have h1 := filter_pyStrip b
    rw [List.isEmpty_iff.1 ht] at h1
    simpa using h1.symm
  · rw [flatten_filter_nonempty,
      splitLoopF_cover (pyStrip b) maxLen hm (pyStrip b).length 0 (by omega),
      List.drop_zero]
    exact filter_pyStrip b

theorem filter_flatten_perBlock (maxLen : Nat) (hm : 1 ≤ maxLen) (block : List Char) :
    ((perBlock maxLen block).flatten).filter (fun c => !pyIsSpace c)
      = block.filter (fun c => !pyIsSpace c) := by
  simp only [perBlock]
  split_ifs with hb
  · have h1 := filter_blockNormalize block
    rw [List.isEmpty_iff.1 hb] at h1
    simpa using h1.symm
  · rw [filter_flatten_split_long _ _ hm, filter_blockNormalize]

theorem filter_flatten_flatMap_perBlock (maxLen : Nat) (hm : 1 ≤ maxLen) :
    ∀ blocks : List (List Char),
      ((blocks.flatMap (perBlock maxLen)).flatten).filter (fun c => !pyIsSpace c)
        = (blocks.flatten).filter (fun c => !pyIsSpace c)
  | [] => rfl
  | b :: blocks => by
    simp only [List.flatMap_cons, List.flatten_append, List.flatten_cons, List.filter_append]
    rw [filter_flatten_perBlock maxLen hm b, filter_flatten_flatMap_perBlock maxLen hm blocks]

/-! ### C4 -/

/-- C4: concatenating every paragraph produced by the evidence formatter
and discarding whitespace reproduces exactly the non-whitespace characters
of the original text, in order — no character is lost or reordered. -/
theorem add_full_text_preserves_nonspace (text : List Char) (maxLen : Nat)
    (hm : 1 ≤ maxLen) :
    ((add_full_text_as_paragraphs text maxLen).flatten).filter (fun c => !pyIsSpace c)
      = text.filter (fun c => !pyIsSpace c) := by
  unfold add_full_text_as_paragraphs
  split_ifs with h0 hnl
  · rw [List.isEmpty_iff.1 h0]
    rfl
  · rw [filter_flatten_flatMap_perBlock maxLen hm]
    have h1 := filter_flatten_reSplitNl2Aux [] (pyStrip text)
    simp only [List.reverse_nil, List.nil_append] at h1
    unfold reSplitNl2
    rw [h1, filter_pyStrip]
  · rw [filter_flatten_flatMap_perBlock maxLen hm, filter_flatten_splitNl]

/-- C4, witness. -/
theorem add_full_text_preserves_nonspace_witness :
    1 ≤ 2 ∧
      ((add_full_text_as_paragraphs (("ab c").toList) 2).flatten).filter
          (fun c => !pyIsSpace c)
        = (("ab c").toList).filter (fun c => !pyIsSpace c) :=
  ⟨by decide, add_full_text_preserves_nonspace (("ab c").toList) 2 (by decide)⟩

/-! ### Find and evidence-scoping lemmas -/

theorem pyFind_some_spec (needle : List Char) :
    ∀ hay p, pyFind needle hay = some p →
      startsWith needle (hay.drop p) = true ∧
      ∀ q, q < p → startsWith needle (hay.drop q) = false
  | [], p => by
    intro hp
    simp only [pyFind] at hp
    by_cases h : startsWith needle []
    · rw [if_pos h] at hp
      injection hp with hp
      subst hp
      exact ⟨by simpa using h, fun q hq => absurd hq (by omega)⟩
    · rw [if_neg h] at hp
      exact Option.noConfusion hp
  | c :: rest, p => by
    intro hp
    simp only [pyFind] at hp
    by_cases h : startsWith needle (c :: rest)
    · rw [if_pos h] at hp
      injection hp with hp
      subst hp
      exact ⟨by simpa using h, fun q hq => absurd hq (by omega)⟩
    · rw [if_neg h] at hp
      cases hf : pyFind needle rest with
      | none =>
        rw [hf] at hp
        simp at hp
      | some pp =>
        rw [hf] at hp
        simp only [Option.map] at hp
        injection hp with hp
        subst hp
        have ih := pyFind_some_spec needle rest pp hf
        refine ⟨by simpa using ih.1, ?_⟩
        intro q hq
        cases q with
        | zero => simpa using h
        | succ qq => simpa using ih.2 qq (by omega)

theorem pyFind_none_spec (needle : List Char) :
    ∀ hay, pyFind needle hay = none → ∀ q, startsWith needle (hay.drop q) = false
  | [] => by
    intro hp q
    simp only [pyFind] at hp
    by_cases h : startsWith needle []
    · rw [if_pos h] at hp
      exact Option.noConfusion hp
    · rw [List.drop_nil]
      simpa using h
  | c :: rest => by
    intro hp q
    simp only [pyFind] at hp
    by_cases h : startsWith needle (c :: rest)
    · rw [if_pos h] at hp
      exact Option.noConfusion hp
    · rw [if_neg h] at hp
      cases hf : pyFind needle rest with
      | some pp =>
        rw [hf] at hp
        simp at hp
      | none =>
        cases q with
        | zero => simpa using h
        | succ qq => simpa using pyFind_none_spec needle rest hf qq

theorem earliestPos_none_spec (lower : List Char) :
    ∀ (patts : List (List Char)) (acc : Option Nat),
      earliestPos lower patts acc = none →
        acc = none ∧ ∀ patt ∈ patts, pyFind patt lower = none
  | [], acc => by
    intro h
    exact ⟨h, by simp⟩
  | patt :: rest, acc => by
    intro h
    simp only [earliestPos] at h
    cases hf : pyFind patt lower with
    | none =>
      rw [hf] at h
      obtain ⟨h1, h2⟩ := earliestPos_none_spec lower rest acc h
      refine ⟨h1, ?_⟩
      intro w hw
      rcases List.mem_cons.1 hw with rfl | hw
      · exact hf
      · exact h2 w hw
    | some pos =>
      rw [hf] at h
      cases acc with
      | none =>
        dsimp at h
        obtain ⟨h1, _⟩ := earliestPos_none_spec lower rest (some pos) h
        exact absurd h1 (by simp)
      | some sp =>
        dsimp at h
        split_ifs at h with hlt
        · obtain ⟨h1, _⟩ := earliestPos_none_spec lower rest (some pos) h
          exact absurd h1 (by simp)
        · obtain ⟨h1, _⟩ := earliestPos_none_spec lower rest (some sp) h
          exact absurd h1 (by simp)

theorem earliestPos_some_spec (lower : List Char) :
    ∀ (patts : List (List Char)) (acc : Option Nat) (p : Nat),
      earliestPos lower patts acc = some p →
        (acc = some p ∨ ∃ patt ∈ patts, pyFind patt lower = some p) ∧
        (∀ q, acc = some q → p ≤ q) ∧
        (∀ patt ∈ patts, ∀ q, pyFind patt lower = some q → p ≤ q)
  | [], acc, p => by
    intro h
    simp only [earliestPos] at h
    refine ⟨Or.inl h, ?_, by simp⟩
    intro q hq
    rw [h] at hq
    injection hq with hq
    omega
  | patt :: rest, acc, p => by
    intro h
    simp only [earliestPos] at h
    cases hf : pyFind patt lower with
    | none =>
      rw [hf] at h
      obtain ⟨ha, hb, hc⟩ := earliestPos_some_spec lower rest acc p h
      refine ⟨?_, hb, ?_⟩
      · rcases ha with ha | ⟨w, hw, hww⟩
        · exact Or.inl ha
        · exact Or.inr ⟨w, List.mem_cons_of_mem _ hw, hww⟩
      · intro w hw q hq
        rcases List.mem_cons.1 hw with rfl | hw
        · rw [hf] at hq
          exact Option.noConfusion hq
        · exact hc w hw q hq
    | some pos =>
      rw [hf] at h
      cases acc with
      | none =>
        dsimp at h
        obtain ⟨ha, hb, hc⟩ := earliestPos_some_spec lower rest (some pos) p h
        have hple : p ≤ pos := hb pos rfl
        refine ⟨?_, ?_, ?_⟩
        · rcases ha with ha | ⟨w, hw, hww⟩
          · injection ha with ha
            subst ha
            exact Or.inr ⟨patt, List.mem_cons_self _ _, hf⟩
          · exact Or.inr ⟨w, List.mem_cons_of_mem _ hw, hww⟩
        · intro q hq
          exact Option.noConfusion hq
        · intro w hw q hq
          rcases List.mem_cons.1 hw with rfl | hw
          · rw [hf] at hq
            injection hq with hq
            subst hq
            exact hple
          · exact hc w hw q hq
      | some sp =>
        dsimp at h
        by_cases hlt : pos < sp
        · rw [if_pos hlt] at h
          obtain ⟨ha, hb, hc⟩ := earliestPos_some_spec lower rest (some pos) p h
          have hple : p ≤ pos := hb pos rfl
          refine ⟨?_, ?_, ?_⟩
          · rcases ha with ha | ⟨w, hw, hww⟩
            · injection ha with ha
              subst ha
              exact Or.inr ⟨patt, List.mem_cons_self _ _, hf⟩
            · exact Or.inr ⟨w, List.mem_cons_of_mem _ hw, hww⟩
          · intro q hq
            injection hq with hq
            subst hq
            omega
          · intro w hw q hq
            rcases List.mem_cons.1 hw with rfl | hw
            · rw [hf] at hq
              injection hq with hq
              subst hq
              exact hple
            · exact hc w hw q hq
        · rw [if_neg hlt] at h
          obtain ⟨ha, hb, hc⟩ := earliestPos_some_spec lower rest (some sp) p h
          have hple : p ≤ sp := hb sp rfl
          refine ⟨?_, ?_, ?_⟩
          · rcases ha with ha | ⟨w, hw, hww⟩
            · exact Or.inl ha
            · exact Or.inr ⟨w, List.mem_cons_of_mem _ hw, hww⟩
          · intro q hq
            injection hq with hq
            subst hq
            exact hple
          · intro w hw q hq
            rcases List.mem_cons.1 hw with rfl | hw
            · rw [hf] at hq
              injection hq with hq
              subst hq
              omega
            · exact hc w hw q hq

/-- There is an occurrence of some configured header phrase
(case-insensitively) starting at position `p` of the text. -/
def occursAtB (raw : List Char) (p : Nat) : Bool :=
  inicios.any (fun w => startsWith (pyLower (String.toList w)) ((pyLower raw).drop p))

theorem occursAtB_iff (raw : List Char) (p : Nat) :
    occursAtB raw p = true ↔
      ∃ patt ∈ inicios.map (fun w => pyLower (String.toList w)),
        startsWith patt ((pyLower raw).drop p) = true := by
  unfold occursAtB
  rw [List.any_eq_true]
  constructor
  · rintro ⟨w, hw, hs⟩
    exact ⟨pyLower (String.toList w), List.mem_map_of_mem _ hw, hs⟩
  · rintro ⟨patt, hpatt, hs⟩
    obtain ⟨w, hw, rfl⟩ := List.mem_map.1 hpatt
    exact ⟨w, hw, hs⟩

/-! ### C7 -/

/-- C7, counterexample: on the input `" x"` no header phrase occurs, yet
the function returns `"x"`, not the text unchanged — it strips surrounding
whitespace. -/
theorem recortar_not_unchanged :
    recortar_evidencia_final ([' ', 'x']) = (['x']) ∧
      recortar_evidencia_final ([' ', 'x']) ≠ ([' ', 'x']) ∧
      occursAtB ([' ', 'x']) 0 = false ∧ occursAtB ([' ', 'x']) 1 = false := by
  refine ⟨by decide, by decide, by decide, by decide⟩

/-- C7 (amended): empty input is returned unchanged; when no header phrase
occurs (case-insensitively) at any position the text is returned with
surrounding whitespace stripped; and when `p` is the earliest position at
which some phrase occurs, the text from `p` onwards is returned with
surrounding whitespace stripped.  In all cases the function is total. -/
theorem recortar_spec (raw : List Char) :
    (raw = [] → recortar_evidencia_final raw = raw) ∧
    ((∀ p, occursAtB raw p = false) → recortar_evidencia_final raw = pyStrip raw) ∧
    (∀ p, occursAtB raw p = true → (∀ q, q < p → occursAtB raw q = false) →
      recortar_evidencia_final raw = pyStrip (raw.drop p)) := by
  refine ⟨?_, ?_, ?_⟩
  · intro h
    subst h
    rfl
  · intro hnone
    unfold recortar_evidencia_final
    by_cases h0 : raw.isEmpty
    · rw [if_pos h0, List.isEmpty_iff.1 h0]
      rfl
    · rw [if_neg h0]
      cases he : earliestPos (pyLower raw)
          (inicios.map (fun w => pyLower (String.toList w))) none with
      | none => rfl
      | some p =>
        exfalso
        obtain ⟨ha, _, _⟩ := earliestPos_some_spec _ _ _ _ he
        rcases ha with ha | ⟨patt, hpatt, hf⟩
        · exact Option.noConfusion ha
        · have hs := (pyFind_some_spec patt (pyLower raw) p hf).1
          have hocc : occursAtB raw p = true := (occursAtB_iff raw p).2 ⟨patt, hpatt, hs⟩
          rw [hnone p] at hocc
          exact Bool.noConfusion hocc
  · intro p hp hmin
    unfold recortar_evidencia_final
    have h0 : ¬ raw.isEmpty = true := by
      intro h0
      rw [List.isEmpty_iff.1 h0] at hp
      unfold occursAtB at hp
      rw [show pyLower [] = [] from rfl, List.drop_nil] at hp
      revert hp
      decide
    rw [if_neg h0]
    cases he : earliestPos (pyLower raw)
        (inicios.map (fun w => pyLower (String.toList w))) none with
    | none =>
      exfalso
      obtain ⟨_, hall⟩ := earliestPos_none_spec _ _ _ he
      obtain ⟨patt, hpatt, hs⟩ := (occursAtB_iff raw p).1 hp
      have hcon := pyFind_none_spec patt (pyLower raw) (hall patt hpatt) p
      rw [hs] at hcon
      exact Bool.noConfusion hcon
    | some pp =>
      obtain ⟨ha, _, hmin'⟩ := earliestPos_some_spec _ _ _ _ he
      rcases ha with ha | ⟨patt, hpatt, hf⟩
      · exact Option.noConfusion ha
      · have hs' := (pyFind_some_spec patt (pyLower raw) pp hf).1
        have hocc' : occursAtB raw pp = true := (occursAtB_iff raw pp).2 ⟨patt, hpatt, hs'⟩
        have hle1 : p ≤ pp := by
          by_contra hcon
          push_neg at hcon
          have hx := hmin pp hcon
          rw [hocc'] at hx
          exact Bool.noConfusion hx
        obtain ⟨w, hw, hsw⟩ := (occursAtB_iff raw p).1 hp
        cases hfw : pyFind w (pyLower raw) with
        | none =>
          exfalso
          have hx := pyFind_none_spec w (pyLower raw) hfw p
          rw [hsw] at hx
          exact Bool.noConfusion hx
        | some q =>
          have hq2 := (pyFind_some_spec w (pyLower raw) q hfw).2
          have hqlep : q ≤ p := by
            by_contra hcon
            push_neg at hcon
            have hx := hq2 p hcon
            rw [hsw] at hx
            exact Bool.noConfusion hx
          have hpp : pp = p := le_antisymm (le_trans (hmin' w hw q hfw) hqlep) hle1
          dsimp only
          rw [hpp]

def raw7 : List Char := 'x' :: ("INFORME FINAL").toList

/-- C7, witness for the amended theorem: a phrase occurs earliest at
position 1 and the function keeps the text from there on, stripped. -/
theorem recortar_spec_witness :
    occursAtB raw7 1 = true ∧ recortar_evidencia_final raw7 = pyStrip (raw7.drop 1) :=
  ⟨by decide, (recortar_spec raw7).2.2 1 (by decide) (by decide)⟩

end Valorador
